import Mathlib

/-!
Verification of the MStory indexed tree store (`src/lib/TreeStore.ts`).

The store keeps three synchronized views of one record collection: an
ordered sequence of records, an ID-to-record map, and a parent-to-children
map.  This file gives a shallow embedding of the data model and of every
public operation, and proves (or refutes) the specified properties.

JavaScript `Map` objects are modelled as association lists with the
insertion-order semantics of `Map.set` / `Map.get` / `Map.delete`.
An id (`string | number` in the source) is a sum of a string and an
integer; strict equality (`===` / `!==`) is decidable equality on the sum.
Records carry the required `id`, `parent`, `label` fields plus the
arbitrary extra fields as an association list; `Object.assign` on a record
is an overwrite-by-key merge.  In the source every structure stores the
same record object by reference; in this value-level embedding an in-place
mutation of a record is rendered as replacing the record, identified by its
id, in every structure that holds it — exact for stores whose records have
pairwise-distinct ids, which is the store's own uniqueness invariant.
-/

namespace MStory

/-- An id: `string | number` in the source. -/
abbrev Ident : Type := String ⊕ Int

/-- List membership is decidable from decidable equality (the sum type of
ids has no `LawfulBEq` instance here, so the core instance does not fire). -/
instance {α : Type} [DecidableEq α] (a : α) (l : List α) : Decidable (a ∈ l) :=
  decidable_of_iff (∃ x ∈ l, x = a) (by simp)

/-- A tree record: `id`, `parent`, `label` plus arbitrary extra fields
(`[key: string]: any`), modelled as an association list of extra fields. -/
structure TreeItem where
  id : Ident
  parent : Option Ident
  label : String
  extra : List (String × String)
deriving DecidableEq, Repr

/-- A JavaScript `Map`, modelled as an association list in insertion order. -/
abbrev JMap (α β : Type) : Type := List (α × β)

namespace JMap

variable {α β γ : Type} [DecidableEq α]

/-- `Map.get`: the value at the first (in a real `Map`, only) entry with
the given key, or absent. -/
def get (m : JMap α β) (k : α) : Option β :=
  match m with
  | [] => none
  | (k', v') :: rest => if k' = k then some v' else get rest k

/-- `Map.has`. -/
def hasKey (m : JMap α β) (k : α) : Bool :=
  (get m k).isSome

/-- `Map.set`: overwrite the value at an existing key (keeping its
position, as a JavaScript `Map` does), otherwise append a new entry. -/
def set (m : JMap α β) (k : α) (v : β) : JMap α β :=
  match m with
  | [] => [(k, v)]
  | (k', v') :: rest => if k' = k then (k', v) :: rest else (k', v') :: set rest k v

/-- `Map.delete`: remove the entry with the given key. -/
def del (m : JMap α β) (k : α) : JMap α β :=
  m.filter (fun kv => decide ¬(kv.1 = k))

end JMap

/-- The single construction pass of the source, restricted to the ID map:
`for (const item of items) this.idMap.set(item.id, item)`. -/
def derivedIdMap (items : List TreeItem) : JMap Ident TreeItem :=
  items.foldl (fun m it => JMap.set m it.id it) []

/-- One step of the children-map derivation loop: for a record with a
non-null parent, append it to that parent's bucket, creating the bucket on
first use.  (`if (!map.has(p)) map.set(p, []); map.get(p)!.push(item)` is
`set p (bucket ++ [item])` on the model.) -/
def childStep (m : JMap Ident (List TreeItem)) (it : TreeItem) : JMap Ident (List TreeItem) :=
  match it.parent with
  | none => m
  | some p => JMap.set m p ((JMap.get m p).getD [] ++ [it])

/-- The children-map (re)derivation loop shared (verbatim) by the
constructor, `removeItem` and `updateItem`. -/
def rebuildChildren (items : List TreeItem) : JMap Ident (List TreeItem) :=
  items.foldl childStep []

/-- The tree store state: the ordered record sequence plus the two maps. -/
structure TreeStore where
  items : List TreeItem
  idMap : JMap Ident TreeItem
  childrenMap : JMap Ident (List TreeItem)
deriving DecidableEq, Repr

namespace TreeStore

/-- `new TreeStore(items)`: copy the sequence and build both maps in one
pass.  The single source loop updates the two independent maps, so it is
rendered as the two independent folds `derivedIdMap` / `rebuildChildren`. -/
def new (items : List TreeItem) : TreeStore :=
  { items := items
    idMap := derivedIdMap items
    childrenMap := rebuildChildren items }

/-- `getAll()`. -/
def getAll (σ : TreeStore) : List TreeItem :=
  σ.items

/-- `getItem(id)`. -/
def getItem (σ : TreeStore) (id : Ident) : Option TreeItem :=
  JMap.get σ.idMap id

/-- `getChildren(id)`: the bucket for `id`, or `[]`. -/
def getChildren (σ : TreeStore) (id : Ident) : List TreeItem :=
  (JMap.get σ.childrenMap id).getD []

/-- The `while (stack.length > 0)` loop of `getAllChildren`, with the stack
kept head-on-top (so `pop` is the head, and pushing the children `c1 … cn`
in order leaves `cn` on top, i.e. prepends their ids reversed).  The loop
of the source has no intrinsic bound, so it is modelled with explicit
fuel: `none` means the fuel was exhausted before the stack emptied. -/
def getAllChildrenAux (σ : TreeStore) :
    Nat → List Ident → List TreeItem → Option (List TreeItem)
  | _, [], acc => some acc
  | 0, _ :: _, _ => none
  | fuel + 1, cid :: rest, acc =>
    let cs := σ.getChildren cid
    getAllChildrenAux σ fuel ((cs.map (fun c => c.id)).reverse ++ rest) (acc ++ cs)

/-- `getAllChildren(id)`.  On an acyclic store the loop performs at most
`items.length + 1` iterations (proved below), so that fuel is exact there;
on a cyclic store the source diverges and the model answers `[]`. -/
def getAllChildren (σ : TreeStore) (id : Ident) : List TreeItem :=
  (getAllChildrenAux σ (σ.items.length + 1) [id] []).getD []

/-- The `while (currentId !== null && idMap.has(currentId))` loop of
`getAllParents`, again with explicit fuel for the unbounded source loop. -/
def getAllParentsAux (σ : TreeStore) :
    Nat → Option Ident → List TreeItem → Option (List TreeItem)
  | fuel, currentId, acc =>
    match currentId with
    | none => some acc
    | some cid =>
      match JMap.get σ.idMap cid with
      | none => some acc
      | some item =>
        match fuel with
        | 0 => none
        | fuel' + 1 => getAllParentsAux σ fuel' item.parent (acc ++ [item])

/-- `getAllParents(id)`.  On an acyclic store the chain visits pairwise
distinct records, hence at most `items.length` of them (proved below). -/
def getAllParents (σ : TreeStore) (id : Ident) : List TreeItem :=
  (getAllParentsAux σ σ.items.length (some id) []).getD []

/-- `addItem(item)`: duplicate-id check first (throw, no mutation), then
append to the sequence, register in the ID map, append to the parent's
bucket when `parent` is non-null. -/
def addItem (σ : TreeStore) (item : TreeItem) : Except String TreeStore :=
  if JMap.hasKey σ.idMap item.id then
    .error "Item with this id already exists"
  else
    .ok
      { items := σ.items ++ [item]
        idMap := JMap.set σ.idMap item.id item
        childrenMap :=
          match item.parent with
          | none => σ.childrenMap
          | some p =>
            JMap.set σ.childrenMap p ((JMap.get σ.childrenMap p).getD [] ++ [item]) }

/-- `removeItem(id)`: collect `id` and the ids of `getAllChildren(id)`,
filter them out of the sequence (`!toRemoveSet.has(item.id)`), delete each
collected id from the ID map, then clear and rebuild the children map from
the remaining sequence. -/
def removeItem (σ : TreeStore) (id : Ident) : TreeStore :=
  let toRemove : List Ident := id :: (σ.getAllChildren id).map (fun it => it.id)
  let newItems := σ.items.filter (fun (it : TreeItem) => decide ¬(it.id ∈ toRemove))
  { items := newItems
    idMap := toRemove.foldl (fun m rid => JMap.del m rid) σ.idMap
    childrenMap := rebuildChildren newItems }

/-- `Object.assign(oldItem, item)`: every required field of `item`
overwrites the corresponding field of `oldItem`; extra fields of `item`
overwrite-by-key into `oldItem`'s extra fields. -/
def objAssign (oldItem item : TreeItem) : TreeItem :=
  { id := item.id
    parent := item.parent
    label := item.label
    extra := item.extra.foldl (fun e kv => JMap.set e kv.1 kv.2) oldItem.extra }

/-- `updateItem(item)`: not-found check first (throw, no mutation); then
merge the fields into the existing record instance in place and re-set it
in the ID map; rebuild the children map only when `parent` changed,
otherwise the buckets keep (and alias) the merged record.  The in-place
mutation of the shared instance is rendered as replacing the record with
the merged one, by id, in every structure holding it. -/
def updateItem (σ : TreeStore) (item : TreeItem) : Except String TreeStore :=
  match JMap.get σ.idMap item.id with
  | none => .error "Item with this id does not exist"
  | some oldItem =>
    let parentChanged : Bool := decide ¬(oldItem.parent = item.parent)
    let merged := objAssign oldItem item
    let newItems := σ.items.map (fun it => if it.id = item.id then merged else it)
    .ok
      { items := newItems
        idMap := JMap.set σ.idMap item.id merged
        childrenMap :=
          if parentChanged then rebuildChildren newItems
          else
            σ.childrenMap.map
              (fun kv => (kv.1, kv.2.map (fun it => if it.id = item.id then merged else it))) }

end TreeStore

/-! ### The store invariants -/

/-- Well-formedness: the two maps are exactly the ones derived from the
record sequence, and ids are pairwise distinct.  This is established by
construction from a duplicate-free input and preserved by every mutation
(proved below). -/
def WF (σ : TreeStore) : Prop :=
  (σ.items.map (fun it => it.id)).Nodup
  ∧ σ.idMap = derivedIdMap σ.items
  ∧ σ.childrenMap = rebuildChildren σ.items

instance (σ : TreeStore) : Decidable (WF σ) := by
  unfold WF
  infer_instance

/-- The store invariants as the specification states them: unique ids, the
ID map holds exactly the records of the sequence, and every non-null parent
value's bucket is exactly the records with that parent, in sequence order. -/
def StoreInv (σ : TreeStore) : Prop :=
  (σ.items.map (fun it => it.id)).Nodup
  ∧ (∀ r : TreeItem, (∃ k, σ.getItem k = some r) ↔ r ∈ σ.items)
  ∧ (∀ p : Ident, (∃ it ∈ σ.items, it.parent = some p) →
      σ.getChildren p = σ.items.filter (fun it => decide (it.parent = some p)))

/-- Acyclicity of the stored parent relation: some rank function strictly
decreases from every record to its parent id (present in the store or not). -/
def Acyclic (σ : TreeStore) : Prop :=
  ∃ rank : Ident → Nat, ∀ it ∈ σ.items, ∀ p, it.parent = some p → rank p < rank it.id

/-! ### Reachability through the children map and the descendant loop -/

/-- The records the descendant traversal can visit from a frontier id `x`:
direct entries of `x`'s bucket, and entries of buckets of visited records. -/
inductive Reach (σ : TreeStore) (x : Ident) : TreeItem → Prop
  | direct {it : TreeItem} : it ∈ σ.getChildren x → Reach σ x it
  | step {m it : TreeItem} : Reach σ x m → it ∈ σ.getChildren m.id → Reach σ x it

/-- An id is reachable from `x` when some reachable record carries it. -/
def ReachId (σ : TreeStore) (x y : Ident) : Prop :=
  ∃ m, Reach σ x m ∧ m.id = y

/-- Big-step meaning of the descendant loop: starting from stack `s`
(head on top) the loop terminates and appends exactly `l` to the result. -/
inductive Dfs (σ : TreeStore) : List Ident → List TreeItem → Prop
  | nil : Dfs σ [] []
  | pop {cid : Ident} {rest : List Ident} {l : List TreeItem} :
      Dfs σ (((σ.getChildren cid).map (fun c => c.id)).reverse ++ rest) l →
      Dfs σ (cid :: rest) (σ.getChildren cid ++ l)

/-- The loop measure of a frontier id: how many records rank above it. -/
def rankMeasure (σ : TreeStore) (r : Ident → Nat) (x : Ident) : Nat :=
  σ.items.countP (fun it => decide (r x < r it.id))

/-- Two frontier ids are independent: distinct and mutually unreachable. -/
def IndepId (σ : TreeStore) (y z : Ident) : Prop :=
  y ≠ z ∧ ¬ ReachId σ y z ∧ ¬ ReachId σ z y

/-- Strict descendants by parent links: the records whose parent chain
leads back to `root`. -/
inductive Desc (σ : TreeStore) (root : Ident) : TreeItem → Prop
  | direct {it : TreeItem} : it ∈ σ.items → it.parent = some root → Desc σ root it
  | step {m it : TreeItem} : Desc σ root m → it ∈ σ.items → it.parent = some m.id →
      Desc σ root it

/-- Big-step meaning of the ancestor loop at an optional current id:
stop on a null current id or an id absent from the ID map, otherwise visit
the record and continue from its parent. -/
inductive AncPath (σ : TreeStore) : Option Ident → List TreeItem → Prop
  | done : AncPath σ none []
  | absent {cid : Ident} : JMap.get σ.idMap cid = none → AncPath σ (some cid) []
  | visit {cid : Ident} {it : TreeItem} {l : List TreeItem} :
      JMap.get σ.idMap cid = some it → AncPath σ it.parent l →
      AncPath σ (some cid) (it :: l)

/-! ### Concrete stores -/

/-- A record with an integer id and optional integer parent. -/
def mkItem (n : Int) (p : Option Int) (lbl : String) : TreeItem :=
  ⟨Sum.inr n, p.map Sum.inr, lbl, []⟩

/-- The specification's scenario records:
(1,null),(2,1),(3,1),(4,2),(5,2),(6,3),(7,null). -/
def scenarioItems : List TreeItem :=
  [mkItem 1 none "a", mkItem 2 (some 1) "b", mkItem 3 (some 1) "c",
   mkItem 4 (some 2) "d", mkItem 5 (some 2) "e", mkItem 6 (some 3) "f",
   mkItem 7 none "g"]

def scenarioStore : TreeStore := TreeStore.new scenarioItems

/-- A store holding one record whose parent is the absent id 99. -/
def orphanStore : TreeStore := TreeStore.new [mkItem 1 (some 99) "a"]

/-- A store with a two-cycle of parent references. -/
def cyclicStore : TreeStore := TreeStore.new [mkItem 1 (some 2) "a", mkItem 2 (some 1) "b"]

/-- Two records sharing the id 1. -/
def dupItems : List TreeItem :=
  [⟨Sum.inr 1, none, "a", []⟩, ⟨Sum.inr 1, none, "b", []⟩]

/-- A rank function witnessing acyclicity of `scenarioStore`. -/
def scenarioRank : Ident → Nat
  | Sum.inr n => n.toNat
  | Sum.inl _ => 0

/-- A rank function witnessing acyclicity of `orphanStore`. -/
def orphanRank : Ident → Nat
  | Sum.inr 99 => 0
  | _ => 1

/-- The explicit state after adding record 8 under parent 1. -/
def addedStore : TreeStore :=
  TreeStore.mk (scenarioStore.items ++ [mkItem 8 (some 1) "h"])
    (JMap.set scenarioStore.idMap (Sum.inr 8) (mkItem 8 (some 1) "h"))
    (JMap.set scenarioStore.childrenMap (Sum.inr 1)
      ((JMap.get scenarioStore.childrenMap (Sum.inr 1)).getD [] ++ [mkItem 8 (some 1) "h"]))

/-- The explicit state after moving record 2 from parent 1 to parent 3. -/
def movedStore : TreeStore :=
  TreeStore.mk
    (scenarioStore.items.map
      (fun r => if r.id = Sum.inr 2 then
        TreeStore.objAssign (mkItem 2 (some 1) "b") (mkItem 2 (some 3) "x") else r))
    (JMap.set scenarioStore.idMap (Sum.inr 2)
      (TreeStore.objAssign (mkItem 2 (some 1) "b") (mkItem 2 (some 3) "x")))
    (rebuildChildren
      (scenarioStore.items.map
        (fun r => if r.id = Sum.inr 2 then
          TreeStore.objAssign (mkItem 2 (some 1) "b") (mkItem 2 (some 3) "x") else r)))


namespace JMap

variable {α β γ : Type} [DecidableEq α]

theorem get_set_self (m : JMap α β) (k : α) (v : β) : get (set m k v) k = some v := by
  induction m with
  | nil => simp [set, get]
  | cons hd tl ih =>
    by_cases h : hd.1 = k
    · simp [set, get, h]
    · simp [set, get, h, ih]

theorem get_set_ne (m : JMap α β) (k k' : α) (v : β) (h : k' ≠ k) :
    get (set m k v) k' = get m k' := by
  induction m with
  | nil => simp [set, get, Ne.symm h]
  | cons hd tl ih =>
    by_cases hk : hd.1 = k
    · subst hk
      simp [set, get, Ne.symm h]
    · by_cases hk' : hd.1 = k'
      · simp [set, get, hk, hk', h]
      · simp [set, get, hk, hk', ih]

theorem del_cons (hd : α × β) (tl : JMap α β) (k : α) :
    del (hd :: tl) k = if hd.1 = k then del tl k else hd :: del tl k := by
  by_cases h : hd.1 = k <;> simp [del, List.filter_cons, h]

theorem get_del_self (m : JMap α β) (k : α) : get (del m k) k = none := by
  induction m with
  | nil => rfl
  | cons hd tl ih =>
    rw [del_cons]
    by_cases h : hd.1 = k
    · simpa [h] using ih
    · simpa [get, h] using ih

theorem get_del_ne (m : JMap α β) (k k' : α) (h : k' ≠ k) :
    get (del m k) k' = get m k' := by
  induction m with
  | nil => rfl
  | cons hd tl ih =>
    rw [del_cons]
    by_cases hk : hd.1 = k
    · rw [if_pos hk, ih]
      have hne : ¬ hd.1 = k' := by
        rw [hk]
        exact Ne.symm h
      simp [get, hne]
    · rw [if_neg hk]
      by_cases hk' : hd.1 = k'
      · simp [get, hk']
      · simp [get, hk', ih]

theorem hasKey_iff_get (m : JMap α β) (k : α) :
    hasKey m k = true ↔ get m k ≠ none := by
  cases h : get m k <;> simp [hasKey, h]

theorem set_of_not_hasKey (m : JMap α β) (k : α) (v : β) (h : ¬ hasKey m k = true) :
    set m k v = m ++ [(k, v)] := by
  induction m with
  | nil => rfl
  | cons hd tl ih =>
    by_cases hk : hd.1 = k
    · exfalso
      apply h
      simp [hasKey, get, hk]
    · have htl : ¬ hasKey tl k = true := by
        simp only [hasKey, get, hk, if_neg, not_false_iff] at h ⊢
        exact h
      simp [set, hk, ih htl]

/-- `get` over a value-mapped association list. -/
theorem get_mapVal (m : JMap α β) (f : β → γ) (k : α) :
    get (m.map (fun kv => (kv.1, f kv.2))) k = Option.map f (get m k) := by
  induction m with
  | nil => rfl
  | cons hd tl ih =>
    by_cases h : hd.1 = k
    · simp [get, h]
    · simp [get, h, ih]

/-- Value-mapping commutes with `set`. -/
theorem mapVal_set (m : JMap α β) (f : β → γ) (k : α) (v : β) :
    (set m k v).map (fun kv => (kv.1, f kv.2)) =
      set (m.map (fun kv => (kv.1, f kv.2))) k (f v) := by
  induction m with
  | nil => rfl
  | cons hd tl ih =>
    by_cases h : hd.1 = k
    · simp [set, h]
    · simp [set, h, ih]

end JMap

/-! ### Derived-map characterizations -/

theorem foldl_childStep_get (items : List TreeItem) (m : JMap Ident (List TreeItem))
    (p : Ident) :
    (JMap.get (items.foldl childStep m) p).getD [] =
      (JMap.get m p).getD [] ++ items.filter (fun it => decide (it.parent = some p)) := by
  induction items generalizing m with
  | nil => simp
  | cons it rest ih =>
    rw [List.foldl_cons, ih, List.filter_cons]
    cases hpar : it.parent with
    | none => simp [childStep, hpar]
    | some q =>
      by_cases hq : q = p
      · subst hq
        simp [childStep, hpar, JMap.get_set_self]
      · have hne : ¬ (it.parent = some p) := by
          simp [hpar, hq]
        simp [childStep, hpar, JMap.get_set_ne _ q p _ (Ne.symm hq), hne, hq]

theorem rebuildChildren_get (items : List TreeItem) (p : Ident) :
    (JMap.get (rebuildChildren items) p).getD [] =
      items.filter (fun it => decide (it.parent = some p)) := by
  have h := foldl_childStep_get items [] p
  simpa [rebuildChildren] using h

theorem get_append {α β : Type} [DecidableEq α] (m m₂ : JMap α β) (k : α) :
    JMap.get (m ++ m₂) k =
      match JMap.get m k with
      | some v => some v
      | none => JMap.get m₂ k := by
  induction m with
  | nil => simp [JMap.get]
  | cons hd tl ih =>
    by_cases h : hd.1 = k
    · simp [JMap.get, h]
    · simp [JMap.get, h, ih]

theorem get_map_pair_some (items : List TreeItem) (k : Ident) (r : TreeItem)
    (h : (items.map (fun it => it.id)).Nodup) :
    JMap.get (items.map (fun it => (it.id, it))) k = some r ↔ r ∈ items ∧ r.id = k := by
  induction items with
  | nil => simp [JMap.get]
  | cons it rest ih =>
    simp only [List.map_cons, List.nodup_cons, List.mem_map] at h
    have hget :
        JMap.get ((it.id, it) :: rest.map (fun it => (it.id, it))) k =
          if it.id = k then some it else JMap.get (rest.map (fun it => (it.id, it))) k := rfl
    rw [List.map_cons, hget]
    by_cases hk : it.id = k
    · rw [if_pos hk]
      constructor
      · intro h'
        have : r = it := (Option.some.inj h').symm
        subst this
        exact ⟨List.mem_cons_self r rest, hk⟩
      · rintro ⟨hr, hid⟩
        rcases List.mem_cons.mp hr with hr' | hr'
        · rw [hr']
        · exact absurd ⟨r, hr', by rw [hid, ← hk]⟩ h.1
    · rw [if_neg hk, ih h.2]
      constructor
      · rintro ⟨hr, hid⟩
        exact ⟨List.mem_cons_of_mem it hr, hid⟩
      · rintro ⟨hr, hid⟩
        rcases List.mem_cons.mp hr with hr | hr
        · exact absurd (hr ▸ hid) hk
        · exact ⟨hr, hid⟩

theorem get_map_pair_none (items : List TreeItem) (k : Ident) :
    JMap.get (items.map (fun it => (it.id, it))) k = none ↔ ∀ it ∈ items, it.id ≠ k := by
  induction items with
  | nil => simp [JMap.get]
  | cons it rest ih =>
    by_cases hk : it.id = k
    · simp [JMap.get, hk]
    · simp [JMap.get, hk, ih]

theorem foldl_set_fresh (items : List TreeItem) :
    ∀ m : JMap Ident TreeItem,
      (items.map (fun it => it.id)).Nodup →
      (∀ it ∈ items, JMap.get m it.id = none) →
      items.foldl (fun m it => JMap.set m it.id it) m =
        m ++ items.map (fun it => (it.id, it)) := by
  induction items with
  | nil => simp
  | cons it rest ih =>
    intro m hnd hfresh
    simp only [List.map_cons, List.nodup_cons, List.mem_map] at hnd
    rw [List.foldl_cons]
    have hset : JMap.set m it.id it = m ++ [(it.id, it)] := by
      apply JMap.set_of_not_hasKey
      simp [JMap.hasKey, hfresh it (List.mem_cons_self it rest)]
    rw [hset, ih (m ++ [(it.id, it)]) hnd.2]
    · simp
    · intro r hr
      rw [get_append]
      have : JMap.get m r.id = none := hfresh r (List.mem_cons_of_mem it hr)
      rw [this]
      have : ¬ it.id = r.id := fun h => hnd.1 ⟨r, hr, h.symm⟩
      simp [JMap.get, this]

theorem derivedIdMap_eq_map (items : List TreeItem)
    (h : (items.map (fun it => it.id)).Nodup) :
    derivedIdMap items = items.map (fun it => (it.id, it)) := by
  have := foldl_set_fresh items [] h (fun it _ => rfl)
  simpa [derivedIdMap] using this

namespace TreeStore

theorem getItem_some_iff {σ : TreeStore} (hwf : WF σ) {k : Ident} {r : TreeItem} :
    σ.getItem k = some r ↔ r ∈ σ.items ∧ r.id = k := by
  rw [getItem, hwf.2.1, derivedIdMap_eq_map σ.items hwf.1]
  exact get_map_pair_some σ.items k r hwf.1

theorem getItem_none_iff {σ : TreeStore} (hwf : WF σ) {k : Ident} :
    σ.getItem k = none ↔ ∀ it ∈ σ.items, it.id ≠ k := by
  rw [getItem, hwf.2.1, derivedIdMap_eq_map σ.items hwf.1]
  exact get_map_pair_none σ.items k

theorem getChildren_eq_filter {σ : TreeStore} (hwf : WF σ) (p : Ident) :
    σ.getChildren p = σ.items.filter (fun it => decide (it.parent = some p)) := by
  rw [getChildren, hwf.2.2]
  exact rebuildChildren_get σ.items p

theorem mem_getChildren_iff {σ : TreeStore} (hwf : WF σ) {p : Ident} {it : TreeItem} :
    it ∈ σ.getChildren p ↔ it ∈ σ.items ∧ it.parent = some p := by
  rw [getChildren_eq_filter hwf p]
  simp [List.mem_filter]

/-- Two records of a well-formed store with the same id are the same record. -/
theorem eq_of_mem_of_id_eq {σ : TreeStore} (hwf : WF σ) {a b : TreeItem}
    (ha : a ∈ σ.items) (hb : b ∈ σ.items) (h : a.id = b.id) : a = b := by
  have h1 : σ.getItem a.id = some a := (getItem_some_iff hwf).mpr ⟨ha, rfl⟩
  have h2 : σ.getItem a.id = some b := (getItem_some_iff hwf).mpr ⟨hb, h.symm⟩
  rw [h1] at h2
  exact Option.some.inj h2

end TreeStore

/-! ### Establishment and preservation of well-formedness -/

theorem wf_new (items : List TreeItem) (h : (items.map (fun it => it.id)).Nodup) :
    WF (TreeStore.new items) :=
  ⟨h, rfl, rfl⟩

theorem rebuildChildren_append_one (items : List TreeItem) (it : TreeItem) :
    rebuildChildren (items ++ [it]) = childStep (rebuildChildren items) it := by
  simp [rebuildChildren, List.foldl_append]

theorem foldl_del_eq_filter {α β : Type} [DecidableEq α] (ks : List α) :
    ∀ m : JMap α β,
      ks.foldl (fun m k => JMap.del m k) m = m.filter (fun kv => decide ¬(kv.1 ∈ ks)) := by
  induction ks with
  | nil =>
    intro m
    simp
  | cons k ks ih =>
    intro m
    rw [List.foldl_cons, ih (JMap.del m k), JMap.del, List.filter_filter]
    apply List.filter_congr
    intro kv _
    by_cases h : kv.1 = k <;> simp [h]

theorem wf_addItem {σ : TreeStore} {it : TreeItem} {σ' : TreeStore}
    (hwf : WF σ) (h : σ.addItem it = .ok σ') : WF σ' := by
  by_cases hdup : JMap.hasKey σ.idMap it.id = true
  · rw [TreeStore.addItem, if_pos hdup] at h
    exact absurd h (by simp)
  · rw [TreeStore.addItem, if_neg hdup] at h
    have hσ' := (Except.ok.inj h).symm
    have hfresh : ∀ r ∈ σ.items, r.id ≠ it.id := by
      have : JMap.get σ.idMap it.id = none := by
        cases hg : JMap.get σ.idMap it.id with
        | none => rfl
        | some v => exact absurd (by simp [JMap.hasKey, hg]) hdup
      rw [hwf.2.1, derivedIdMap_eq_map σ.items hwf.1, get_map_pair_none] at this
      exact this
    have hnd : ((σ.items ++ [it]).map (fun r => r.id)).Nodup := by
      rw [List.map_append]
      simp only [List.map_cons, List.map_nil]
      rw [List.nodup_append]
      refine ⟨hwf.1, List.nodup_singleton _, ?_⟩
      intro x hx
      simp only [List.mem_singleton]
      rcases List.mem_map.mp hx with ⟨r, hr, hxid⟩
      rw [← hxid]
      exact fun hc => (hfresh r hr) (by simpa using hc)
    refine hσ' ▸ ⟨hnd, ?_, ?_⟩
    · show JMap.set σ.idMap it.id it = derivedIdMap (σ.items ++ [it])
      rw [JMap.set_of_not_hasKey σ.idMap it.id it hdup, hwf.2.1,
        derivedIdMap_eq_map σ.items hwf.1, derivedIdMap_eq_map _ hnd]
      simp
    · show (match it.parent with
          | none => σ.childrenMap
          | some p =>
            JMap.set σ.childrenMap p ((JMap.get σ.childrenMap p).getD [] ++ [it])) =
          rebuildChildren (σ.items ++ [it])
      rw [rebuildChildren_append_one, ← hwf.2.2, childStep]

theorem wf_removeItem {σ : TreeStore} (hwf : WF σ) (id : Ident) :
    WF (σ.removeItem id) := by
  rw [TreeStore.removeItem]
  set S : List Ident := id :: (σ.getAllChildren id).map (fun r => r.id) with hS
  set items' := σ.items.filter (fun (r : TreeItem) => decide ¬(r.id ∈ S)) with hitems'
  have hnd : (items'.map (fun r => r.id)).Nodup := by
    apply List.Nodup.sublist _ hwf.1
    exact List.Sublist.map _ (List.filter_sublist σ.items)
  refine ⟨hnd, ?_, rfl⟩
  show S.foldl (fun m rid => JMap.del m rid) σ.idMap = derivedIdMap items'
  rw [foldl_del_eq_filter, hwf.2.1, derivedIdMap_eq_map σ.items hwf.1,
    derivedIdMap_eq_map items' hnd, List.filter_map]
  congr 1

theorem map_pair_set_subst (items : List TreeItem) (k : Ident) (merged : TreeItem)
    (hnd : (items.map (fun r => r.id)).Nodup) (hmem : ∃ r ∈ items, r.id = k)
    (hmid : merged.id = k) :
    JMap.set (items.map (fun r => (r.id, r))) k merged =
      (items.map (fun r => if r.id = k then merged else r)).map (fun r => (r.id, r)) := by
  induction items with
  | nil => simp at hmem
  | cons a rest ih =>
    simp only [List.map_cons, List.nodup_cons, List.mem_map] at hnd
    by_cases ha : a.id = k
    · have hrest : ∀ r ∈ rest, ¬ (r.id = k) := by
        intro r hr hc
        exact hnd.1 ⟨r, hr, by rw [hc, ← ha]⟩
      have : rest.map (fun r => if r.id = k then merged else r) = rest := by
        conv_rhs => rw [← List.map_id rest]
        exact List.map_congr_left fun r hr => by rw [if_neg (hrest r hr)]; rfl
      simp only [List.map_cons, JMap.set, ha, if_pos]
      rw [this]
      simp [ha, hmid]
    · have hmem' : ∃ r ∈ rest, r.id = k := by
        rcases hmem with ⟨r, hr, hrk⟩
        rcases List.mem_cons.mp hr with h | h
        · exact absurd (h ▸ hrk) ha
        · exact ⟨r, h, hrk⟩
      simp only [List.map_cons, JMap.set, ha, if_neg]
      rw [ih hnd.2 hmem']
      simp [ha]

theorem foldl_childStep_map (items : List TreeItem) (f : TreeItem → TreeItem)
    (hf : ∀ r ∈ items, (f r).parent = r.parent) :
    ∀ m : JMap Ident (List TreeItem),
      (items.map f).foldl childStep (m.map (fun kv => (kv.1, kv.2.map f))) =
        (items.foldl childStep m).map (fun kv => (kv.1, kv.2.map f)) := by
  induction items with
  | nil =>
    intro m
    simp
  | cons a rest ih =>
    intro m
    have hfa := hf a (List.mem_cons_self a rest)
    have hfrest : ∀ r ∈ rest, (f r).parent = r.parent :=
      fun r hr => hf r (List.mem_cons_of_mem a hr)
    rw [List.map_cons, List.foldl_cons, List.foldl_cons]
    cases hpar : a.parent with
    | none =>
      rw [show childStep (m.map (fun kv => (kv.1, kv.2.map f))) (f a) =
            m.map (fun kv => (kv.1, kv.2.map f)) from by
          rw [childStep, hfa, hpar],
        show childStep m a = m from by rw [childStep, hpar]]
      exact ih hfrest m
    | some p =>
      have hred : ∀ (mm : JMap Ident (List TreeItem)) (b : TreeItem), b.parent = some p →
          childStep mm b = JMap.set mm p ((JMap.get mm p).getD [] ++ [b]) := by
        intro mm b hb
        rw [childStep, hb]
      rw [hred _ (f a) (by rw [hfa, hpar]), hred _ a hpar, JMap.get_mapVal]
      have hbform :
          (Option.map (List.map f) (JMap.get m p)).getD [] ++ [f a] =
            ((JMap.get m p).getD [] ++ [a]).map f := by
        cases JMap.get m p <;> simp
      rw [hbform, ← JMap.mapVal_set m (List.map f) p ((JMap.get m p).getD [] ++ [a])]
      exact ih hfrest _

theorem wf_updateItem {σ : TreeStore} {it : TreeItem} {σ' : TreeStore}
    (hwf : WF σ) (h : σ.updateItem it = .ok σ') : WF σ' := by
  rw [TreeStore.updateItem] at h
  cases hget : JMap.get σ.idMap it.id with
  | none =>
    rw [hget] at h
    exact absurd h (by simp)
  | some oldItem =>
    rw [hget] at h
    have hσ' := (Except.ok.inj h).symm
    have hold : oldItem ∈ σ.items ∧ oldItem.id = it.id :=
      (TreeStore.getItem_some_iff hwf).mp hget
    set merged := TreeStore.objAssign oldItem it with hmerged
    have hmid : merged.id = it.id := rfl
    set f : TreeItem → TreeItem := fun r => if r.id = it.id then merged else r with hfdef
    have hids : (σ.items.map f).map (fun r => r.id) = σ.items.map (fun r => r.id) := by
      rw [List.map_map]
      apply List.map_congr_left
      intro r _
      by_cases hr : r.id = it.id
      · simp [hfdef, hr, hmid]
      · simp [hfdef, hr]
    have hnd : ((σ.items.map f).map (fun r => r.id)).Nodup := by
      rw [hids]
      exact hwf.1
    refine hσ' ▸ ⟨hnd, ?_, ?_⟩
    · show JMap.set σ.idMap it.id merged = derivedIdMap (σ.items.map f)
      rw [hwf.2.1, derivedIdMap_eq_map σ.items hwf.1, derivedIdMap_eq_map _ hnd,
        map_pair_set_subst σ.items it.id merged hwf.1 ⟨oldItem, hold.1, hold.2⟩ hmid]
    · show (if (decide ¬(oldItem.parent = it.parent)) then rebuildChildren (σ.items.map f)
          else σ.childrenMap.map (fun kv => (kv.1, kv.2.map f))) =
          rebuildChildren (σ.items.map f)
      by_cases hpc : oldItem.parent = it.parent
      · rw [if_neg (by simp [hpc])]
        have hf : ∀ r ∈ σ.items, (f r).parent = r.parent := by
          intro r hr
          by_cases hrid : r.id = it.id
          · have : r = oldItem :=
              TreeStore.eq_of_mem_of_id_eq hwf hr hold.1 (by rw [hrid, hold.2])
            simp only [hfdef, if_pos hrid]
            show it.parent = r.parent
            rw [this, hpc]
          · simp [hfdef, hrid]
        rw [hwf.2.2]
        have := foldl_childStep_map σ.items f hf []
        simpa [rebuildChildren] using this.symm
      · rw [if_pos (by simp [hpc])]

theorem Reach.mem_items {σ : TreeStore} {x : Ident} {it : TreeItem}
    (hwf : WF σ) (h : Reach σ x it) : it ∈ σ.items := by
  cases h with
  | direct h => exact ((TreeStore.mem_getChildren_iff hwf).mp h).1
  | step hm h => exact ((TreeStore.mem_getChildren_iff hwf).mp h).1

theorem Reach.parent_cases {σ : TreeStore} {x : Ident} {it : TreeItem}
    (hwf : WF σ) (h : Reach σ x it) :
    it.parent = some x ∨ ∃ m, Reach σ x m ∧ it.parent = some m.id := by
  cases h with
  | direct h => exact Or.inl ((TreeStore.mem_getChildren_iff hwf).mp h).2
  | step hm h => exact Or.inr ⟨_, hm, ((TreeStore.mem_getChildren_iff hwf).mp h).2⟩

theorem Reach.trans {σ : TreeStore} {x : Ident} {m it : TreeItem}
    (h1 : Reach σ x m) (h2 : Reach σ m.id it) : Reach σ x it := by
  induction h2 with
  | direct h => exact Reach.step h1 h
  | step _ h ih => exact Reach.step ih h

theorem Reach.rank_lt {σ : TreeStore} {x : Ident} {it : TreeItem} {r : Ident → Nat}
    (hwf : WF σ) (hr : ∀ a ∈ σ.items, ∀ p, a.parent = some p → r p < r a.id)
    (h : Reach σ x it) : r x < r it.id := by
  induction h with
  | direct h =>
    have hm := (TreeStore.mem_getChildren_iff hwf).mp h
    exact hr _ hm.1 x hm.2
  | step _ h ih =>
    have hm := (TreeStore.mem_getChildren_iff hwf).mp h
    exact lt_trans ih (hr _ hm.1 _ hm.2)

/-- Two frontier ids that reach the same record lie on one parent chain:
they are equal, or one is reachable from the other. -/
theorem Reach.chain_of_common {σ : TreeStore} {y z : Ident} (hwf : WF σ) :
    ∀ {it : TreeItem}, Reach σ y it → Reach σ z it →
      y = z ∨ ReachId σ y z ∨ ReachId σ z y := by
  intro it hy
  induction hy with
  | direct h =>
    intro hz
    have h1 := (TreeStore.mem_getChildren_iff hwf).mp h
    rcases hz.parent_cases hwf with hp | ⟨m, hm, hp⟩
    · rw [h1.2] at hp
      exact Or.inl (Option.some.inj hp)
    · rw [h1.2] at hp
      exact Or.inr (Or.inr ⟨m, hm, (Option.some.inj hp).symm⟩)
  | step hm h ih =>
    intro hz
    have h1 := (TreeStore.mem_getChildren_iff hwf).mp h
    rcases hz.parent_cases hwf with hp | ⟨m', hm', hp⟩
    · rw [h1.2] at hp
      rename_i mrec _
      exact Or.inr (Or.inl ⟨mrec, hm, Option.some.inj hp⟩)
    · rw [h1.2] at hp
      rename_i mrec _
      have hmm : mrec = m' :=
        TreeStore.eq_of_mem_of_id_eq hwf (hm.mem_items hwf) (hm'.mem_items hwf)
          (Option.some.inj hp)
      exact ih (hmm ▸ hm')

/-- The fueled loop computes any big-step result, given fuel for every
iteration (one per eventual pop, i.e. `s.length + l.length`). -/
theorem Dfs.children_aux_eq {σ : TreeStore} {s : List Ident} {l : List TreeItem} (h : Dfs σ s l) :
    ∀ fuel acc, s.length + l.length ≤ fuel →
      TreeStore.getAllChildrenAux σ fuel s acc = some (acc ++ l) := by
  induction h with
  | nil =>
    intro fuel acc _
    cases fuel <;> simp [TreeStore.getAllChildrenAux]
  | pop hsub ih =>
    intro fuel acc hfuel
    rename_i cid rest l'
    cases fuel with
    | zero => simp at hfuel
    | succ f =>
      rw [TreeStore.getAllChildrenAux]
      rw [ih f (acc ++ σ.getChildren cid) (by simp at hfuel ⊢; omega)]
      rw [List.append_assoc]

theorem Dfs.append {σ : TreeStore} {s₁ s₂ : List Ident} {l₁ l₂ : List TreeItem}
    (h1 : Dfs σ s₁ l₁) (h2 : Dfs σ s₂ l₂) : Dfs σ (s₁ ++ s₂) (l₁ ++ l₂) := by
  induction h1 with
  | nil => simpa using h2
  | pop hsub ih =>
    rename_i cid rest l'
    rw [List.cons_append, List.append_assoc]
    exact Dfs.pop (by rw [← List.append_assoc]; exact ih)

/-- Everything the loop appends is reachable from some stack id. -/
theorem Dfs.sound {σ : TreeStore} {s : List Ident} {l : List TreeItem} (h : Dfs σ s l) :
    ∀ it ∈ l, ∃ x ∈ s, Reach σ x it := by
  induction h with
  | nil => simp
  | pop hsub ih =>
    rename_i cid rest l'
    intro it hit
    rcases List.mem_append.mp hit with hit | hit
    · exact ⟨cid, List.mem_cons_self cid rest, Reach.direct hit⟩
    · rcases ih it hit with ⟨x, hx, hreach⟩
      rcases List.mem_append.mp hx with hx | hx
      · rcases List.mem_reverse.mp hx with hx
        rcases List.mem_map.mp hx with ⟨c, hc, hcid⟩
        exact ⟨cid, List.mem_cons_self cid rest,
          Reach.trans (Reach.direct hc) (hcid ▸ hreach)⟩
      · exact ⟨x, List.mem_cons_of_mem cid hx, hreach⟩

/-- The children of every stack id end up in the result. -/
theorem Dfs.stack_children {σ : TreeStore} {s : List Ident} {l : List TreeItem}
    (h : Dfs σ s l) : ∀ x ∈ s, ∀ c ∈ σ.getChildren x, c ∈ l := by
  induction h with
  | nil => simp
  | pop hsub ih =>
    rename_i cid rest l'
    intro x hx c hc
    rcases List.mem_cons.mp hx with hx | hx
    · subst hx
      exact List.mem_append.mpr (Or.inl hc)
    · exact List.mem_append.mpr (Or.inr (ih x (List.mem_append.mpr (Or.inr hx)) c hc))

/-- The children of every result record end up in the result. -/
theorem Dfs.result_children {σ : TreeStore} {s : List Ident} {l : List TreeItem}
    (h : Dfs σ s l) : ∀ m ∈ l, ∀ c ∈ σ.getChildren m.id, c ∈ l := by
  induction h with
  | nil => simp
  | pop hsub ih =>
    rename_i cid rest l'
    intro m hm c hc
    rcases List.mem_append.mp hm with hm | hm
    · refine List.mem_append.mpr (Or.inr ?_)
      refine hsub.stack_children m.id ?_ c hc
      refine List.mem_append.mpr (Or.inl ?_)
      exact List.mem_reverse.mpr (List.mem_map.mpr ⟨m, hm, rfl⟩)
    · exact List.mem_append.mpr (Or.inr (ih m hm c hc))

/-- Everything reachable from a stack id is in the result. -/
theorem Dfs.complete {σ : TreeStore} {s : List Ident} {l : List TreeItem}
    (h : Dfs σ s l) {x : Ident} (hx : x ∈ s) {it : TreeItem}
    (hreach : Reach σ x it) : it ∈ l := by
  induction hreach with
  | direct hc => exact h.stack_children x hx _ hc
  | step _ hc ih => exact h.result_children _ ih _ hc

/-! ### Termination of the descendant loop on acyclic stores -/

theorem countP_strict_mono {α : Type} {l : List α} {p q : α → Bool}
    (hpq : ∀ x ∈ l, p x = true → q x = true) {a0 : α} (ha0 : a0 ∈ l)
    (hq0 : q a0 = true) (hp0 : ¬ p a0 = true) :
    l.countP p < l.countP q := by
  obtain ⟨s, t, rfl⟩ := List.append_of_mem ha0
  rw [List.countP_append, List.countP_append, List.countP_cons, List.countP_cons]
  have hs : s.countP p ≤ s.countP q :=
    List.countP_mono_left (fun x hx => hpq x (by simp [hx]))
  have ht : t.countP p ≤ t.countP q :=
    List.countP_mono_left (fun x hx => hpq x (by simp [hx]))
  simp only [hq0, if_pos]
  rw [if_neg hp0]
  omega

theorem rankMeasure_child_lt {σ : TreeStore} {r : Ident → Nat} {x : Ident} {c : TreeItem}
    (hwf : WF σ) (hr : ∀ a ∈ σ.items, ∀ p, a.parent = some p → r p < r a.id)
    (hc : c ∈ σ.getChildren x) : rankMeasure σ r c.id < rankMeasure σ r x := by
  have hcm := (TreeStore.mem_getChildren_iff hwf).mp hc
  have hx : r x < r c.id := hr c hcm.1 x hcm.2
  refine countP_strict_mono ?_ hcm.1 ?_ ?_
  · intro it hit hp
    simp only [decide_eq_true_eq] at hp ⊢
    omega
  · simp only [decide_eq_true_eq]
    exact hx
  · simp

theorem dfs_concat {σ : TreeStore} : ∀ ids : List Ident,
    (∀ y ∈ ids, ∃ l, Dfs σ [y] l) → ∃ L, Dfs σ ids L := by
  intro ids
  induction ids with
  | nil => exact fun _ => ⟨[], Dfs.nil⟩
  | cons y ids ih =>
    intro h
    obtain ⟨ly, hy⟩ := h y (List.mem_cons_self y ids)
    obtain ⟨L, hL⟩ := ih (fun z hz => h z (List.mem_cons_of_mem _ hz))
    exact ⟨ly ++ L, by simpa using Dfs.append hy hL⟩

/-- On an acyclic well-formed store the descendant loop terminates from
every single-id stack. -/
theorem dfs_exists {σ : TreeStore} (hwf : WF σ) (r : Ident → Nat)
    (hr : ∀ a ∈ σ.items, ∀ p, a.parent = some p → r p < r a.id) (x : Ident) :
    ∃ l, Dfs σ [x] l := by
  have main : ∀ n y, rankMeasure σ r y < n → ∃ l, Dfs σ [y] l := by
    intro n
    induction n with
    | zero => exact fun y h => absurd h (Nat.not_lt_zero _)
    | succ n ih =>
      intro y hy
      have hch : ∀ z ∈ ((σ.getChildren y).map (fun c => c.id)).reverse, ∃ l, Dfs σ [z] l := by
        intro z hz
        rcases List.mem_map.mp (List.mem_reverse.mp hz) with ⟨c, hc, rfl⟩
        exact ih c.id (lt_of_lt_of_le (rankMeasure_child_lt hwf hr hc) (Nat.lt_succ_iff.mp hy))
      obtain ⟨L, hL⟩ := dfs_concat _ hch
      exact ⟨σ.getChildren y ++ L, Dfs.pop (by simpa using hL)⟩
  exact main (rankMeasure σ r x + 1) x (Nat.lt_succ_self _)

/-! ### Uniqueness and ordering of the descendant traversal -/

/-- A frontier id that reaches a record lies on the record's parent chain. -/
theorem reach_parent_chain {σ : TreeStore} (hwf : WF σ) {z : Ident} {it : TreeItem}
    (h : Reach σ z it) {p : Ident} (hp : it.parent = some p) :
    z = p ∨ ReachId σ z p := by
  rcases h.parent_cases hwf with h1 | ⟨m, hm, h1⟩
  · rw [hp] at h1
    exact Or.inl (Option.some.inj h1).symm
  · rw [hp] at h1
    exact Or.inr ⟨m, hm, (Option.some.inj h1).symm⟩

/-- A child of `cid` cannot reach another record whose parent is `cid`. -/
theorem not_reach_of_sibling {σ : TreeStore} {r : Ident → Nat} (hwf : WF σ)
    (hr : ∀ a ∈ σ.items, ∀ p, a.parent = some p → r p < r a.id)
    {cid : Ident} {c it : TreeItem}
    (hc : c ∈ σ.getChildren cid) (hitp : it.parent = some cid) : ¬ Reach σ c.id it := by
  intro h
  have hcm := (TreeStore.mem_getChildren_iff hwf).mp hc
  have h2 : r cid < r c.id := hr c hcm.1 cid hcm.2
  rcases reach_parent_chain hwf h hitp with h1 | ⟨m, hm, h1⟩
  · rw [h1] at h2
    exact absurd h2 (lt_irrefl _)
  · have h3 : r c.id < r m.id := hm.rank_lt hwf hr
    rw [h1] at h3
    omega

theorem IndepId.symm {σ : TreeStore} {y z : Ident} (h : IndepId σ y z) : IndepId σ z y :=
  ⟨h.1.symm, h.2.2, h.2.1⟩

/-- Ids of two distinct records in one bucket are independent. -/
theorem sibling_indep {σ : TreeStore} {r : Ident → Nat} (hwf : WF σ)
    (hr : ∀ a ∈ σ.items, ∀ p, a.parent = some p → r p < r a.id)
    {cid : Ident} {c c' : TreeItem}
    (hc : c ∈ σ.getChildren cid) (hc' : c' ∈ σ.getChildren cid) (hne : c ≠ c') :
    IndepId σ c.id c'.id := by
  have hcm := (TreeStore.mem_getChildren_iff hwf).mp hc
  have hcm' := (TreeStore.mem_getChildren_iff hwf).mp hc'
  refine ⟨?_, ?_, ?_⟩
  · intro h
    exact hne (TreeStore.eq_of_mem_of_id_eq hwf hcm.1 hcm'.1 h)
  · rintro ⟨m, hm, hmid⟩
    have : m = c' :=
      TreeStore.eq_of_mem_of_id_eq hwf (hm.mem_items hwf) hcm'.1 hmid
    exact not_reach_of_sibling hwf hr hc hcm'.2 (this ▸ hm)
  · rintro ⟨m, hm, hmid⟩
    have : m = c :=
      TreeStore.eq_of_mem_of_id_eq hwf (hm.mem_items hwf) hcm.1 hmid
    exact not_reach_of_sibling hwf hr hc' hcm.2 (this ▸ hm)

/-- The frontier that replaces a popped id stays pairwise independent. -/
theorem newstack_ok {σ : TreeStore} {r : Ident → Nat} (hwf : WF σ)
    (hr : ∀ a ∈ σ.items, ∀ p, a.parent = some p → r p < r a.id)
    {cid : Ident} {rest : List Ident}
    (hok : (cid :: rest).Pairwise (IndepId σ)) :
    (((σ.getChildren cid).map (fun c => c.id)).reverse ++ rest).Pairwise (IndepId σ) := by
  obtain ⟨hhead, htail⟩ := List.pairwise_cons.mp hok
  rw [List.pairwise_append]
  refine ⟨?_, htail, ?_⟩
  · rw [List.pairwise_reverse, List.pairwise_map]
    have hnodup : (σ.getChildren cid).Nodup := by
      rw [TreeStore.getChildren_eq_filter hwf]
      exact (List.Nodup.of_map _ hwf.1).filter _
    refine List.Pairwise.imp_of_mem ?_ hnodup
    intro c c' hcmem hcmem' hne
    exact (sibling_indep hwf hr hcmem hcmem' hne).symm
  · intro a ha z hz
    rcases List.mem_map.mp (List.mem_reverse.mp ha) with ⟨c, hc, rfl⟩
    have hiz := hhead z hz
    have hcm := (TreeStore.mem_getChildren_iff hwf).mp hc
    refine ⟨?_, ?_, ?_⟩
    · intro h
      exact hiz.2.1 ⟨c, Reach.direct hc, h⟩
    · rintro ⟨m, hm, hmid⟩
      exact hiz.2.1 ⟨m, Reach.trans (Reach.direct hc) hm, hmid⟩
    · rintro ⟨m, hm, hmid⟩
      have : m = c :=
        TreeStore.eq_of_mem_of_id_eq hwf (hm.mem_items hwf) hcm.1 hmid
      subst this
      rcases reach_parent_chain hwf hm hcm.2 with h1 | h1
      · exact hiz.1 h1.symm
      · exact hiz.2.2 h1

/-- No record whose parent is the popped id is reachable from the new
frontier. -/
theorem newstack_not_reach_child {σ : TreeStore} {r : Ident → Nat} (hwf : WF σ)
    (hr : ∀ a ∈ σ.items, ∀ p, a.parent = some p → r p < r a.id)
    {cid : Ident} {rest : List Ident}
    (hok : (cid :: rest).Pairwise (IndepId σ)) {it : TreeItem}
    (hitp : it.parent = some cid) :
    ∀ z ∈ ((σ.getChildren cid).map (fun c => c.id)).reverse ++ rest, ¬ Reach σ z it := by
  obtain ⟨hhead, _⟩ := List.pairwise_cons.mp hok
  intro z hz h
  rcases List.mem_append.mp hz with hz | hz
  · rcases List.mem_map.mp (List.mem_reverse.mp hz) with ⟨c, hc, rfl⟩
    exact not_reach_of_sibling hwf hr hc hitp h
  · have hiz := hhead z hz
    rcases reach_parent_chain hwf h hitp with h1 | h1
    · exact hiz.1 h1.symm
    · exact hiz.2.2 h1

/-- A record reachable from the new frontier neither carries the popped id
nor reaches it. -/
theorem newstack_not_reach_cid {σ : TreeStore} {r : Ident → Nat} (hwf : WF σ)
    (hr : ∀ a ∈ σ.items, ∀ p, a.parent = some p → r p < r a.id)
    {cid : Ident} {rest : List Ident}
    (hok : (cid :: rest).Pairwise (IndepId σ)) {b : TreeItem} {z : Ident}
    (hz : z ∈ ((σ.getChildren cid).map (fun c => c.id)).reverse ++ rest)
    (hzb : Reach σ z b) :
    ¬ (b.id = cid ∨ ReachId σ b.id cid) := by
  obtain ⟨hhead, _⟩ := List.pairwise_cons.mp hok
  intro hcon
  rcases List.mem_append.mp hz with hz | hz
  · rcases List.mem_map.mp (List.mem_reverse.mp hz) with ⟨c, hc, rfl⟩
    have hcm := (TreeStore.mem_getChildren_iff hwf).mp hc
    have h2 : r cid < r c.id := hr c hcm.1 cid hcm.2
    rcases hcon with hb | ⟨m, hm, hmid⟩
    · have h3 : r c.id < r b.id := hzb.rank_lt hwf hr
      rw [hb] at h3
      omega
    · have h3 : r c.id < r m.id := (Reach.trans hzb hm).rank_lt hwf hr
      rw [hmid] at h3
      omega
  · have hiz := hhead z hz
    rcases hcon with hb | ⟨m, hm, hmid⟩
    · exact hiz.2.2 ⟨b, hzb, hb⟩
    · exact hiz.2.2 ⟨m, Reach.trans hzb hm, hmid⟩

/-- From an independent frontier the loop never appends a record twice. -/
theorem Dfs.result_nodup {σ : TreeStore} {r : Ident → Nat} (hwf : WF σ)
    (hr : ∀ a ∈ σ.items, ∀ p, a.parent = some p → r p < r a.id) :
    ∀ {s : List Ident} {l : List TreeItem}, Dfs σ s l →
      s.Pairwise (IndepId σ) → l.Nodup := by
  intro s l h
  induction h with
  | nil => exact fun _ => List.nodup_nil
  | pop hsub ih =>
    intro hok
    rename_i cid rest l'
    have hok' := newstack_ok hwf hr hok
    rw [List.nodup_append]
    refine ⟨?_, ih hok', ?_⟩
    · rw [TreeStore.getChildren_eq_filter hwf]
      exact (List.Nodup.of_map _ hwf.1).filter _
    · intro it hit hit'
      rcases hsub.sound it hit' with ⟨z, hz, hreach⟩
      have hitp := ((TreeStore.mem_getChildren_iff hwf).mp hit).2
      exact newstack_not_reach_child hwf hr hok hitp z hz hreach

/-- From an independent frontier every appended record precedes all of the
records reachable from it: no record is preceded by one of its own
descendants. -/
theorem Dfs.result_ordered {σ : TreeStore} {r : Ident → Nat} (hwf : WF σ)
    (hr : ∀ a ∈ σ.items, ∀ p, a.parent = some p → r p < r a.id) :
    ∀ {s : List Ident} {l : List TreeItem}, Dfs σ s l →
      s.Pairwise (IndepId σ) → l.Pairwise (fun a b => ¬ Reach σ b.id a) := by
  intro s l h
  induction h with
  | nil => exact fun _ => List.Pairwise.nil
  | pop hsub ih =>
    intro hok
    rename_i cid rest l'
    have hok' := newstack_ok hwf hr hok
    rw [List.pairwise_append]
    refine ⟨?_, ih hok', ?_⟩
    · refine List.pairwise_of_forall_mem_list ?_
      intro a ha b hb hreach
      have hap := ((TreeStore.mem_getChildren_iff hwf).mp ha).2
      exact not_reach_of_sibling hwf hr hb hap hreach
    · intro a ha b hb hreach
      have hap := ((TreeStore.mem_getChildren_iff hwf).mp ha).2
      rcases hsub.sound b hb with ⟨z, hz, hzb⟩
      exact newstack_not_reach_cid hwf hr hok hz hzb
        (reach_parent_chain hwf hreach hap)

/-! ### The descendant traversal, characterized -/

theorem reach_iff_desc {σ : TreeStore} (hwf : WF σ) {x : Ident} {it : TreeItem} :
    Reach σ x it ↔ Desc σ x it := by
  constructor
  · intro h
    induction h with
    | direct h =>
      obtain ⟨h1, h2⟩ := (TreeStore.mem_getChildren_iff hwf).mp h
      exact Desc.direct h1 h2
    | step _ h ih =>
      obtain ⟨h1, h2⟩ := (TreeStore.mem_getChildren_iff hwf).mp h
      exact Desc.step ih h1 h2
  · intro h
    induction h with
    | direct h1 h2 => exact Reach.direct ((TreeStore.mem_getChildren_iff hwf).mpr ⟨h1, h2⟩)
    | step _ h1 h2 ih => exact Reach.step ih ((TreeStore.mem_getChildren_iff hwf).mpr ⟨h1, h2⟩)

/-- On an acyclic well-formed store `getAllChildren` computes a unique
terminating traversal: the fuel of the model is sufficient, and the result
is duplicate-free, ancestor-ordered and reachability-sound. -/
theorem getAllChildren_dfs {σ : TreeStore} (hwf : WF σ) (hac : Acyclic σ) (x : Ident) :
    ∃ l, Dfs σ [x] l ∧ σ.getAllChildren x = l ∧ l.Nodup ∧
      l.Pairwise (fun a b => ¬ Reach σ b.id a) ∧ ∀ it ∈ l, it ∈ σ.items := by
  obtain ⟨r, hr⟩ := hac
  obtain ⟨l, hl⟩ := dfs_exists hwf r hr x
  have hok : ([x] : List Ident).Pairwise (IndepId σ) := List.pairwise_singleton _ _
  have hnd := Dfs.result_nodup hwf hr hl hok
  have hord := Dfs.result_ordered hwf hr hl hok
  have hsub : ∀ it ∈ l, it ∈ σ.items := by
    intro it hit
    rcases hl.sound it hit with ⟨z, _, h⟩
    exact h.mem_items hwf
  have hlen : l.length ≤ σ.items.length :=
    (List.subperm_of_subset hnd hsub).length_le
  have heq : σ.getAllChildren x = l := by
    rw [TreeStore.getAllChildren,
      hl.children_aux_eq (σ.items.length + 1) [] (by simp only [List.length_singleton]; omega)]
    simp
  exact ⟨l, hl, heq, hnd, hord, hsub⟩

theorem mem_getAllChildren_iff {σ : TreeStore} (hwf : WF σ) (hac : Acyclic σ)
    {x : Ident} {it : TreeItem} :
    it ∈ σ.getAllChildren x ↔ Desc σ x it := by
  obtain ⟨l, hl, heq, _, _, _⟩ := getAllChildren_dfs hwf hac x
  rw [heq, ← reach_iff_desc hwf]
  constructor
  · intro h
    rcases hl.sound it h with ⟨z, hz, hreach⟩
    rcases List.mem_singleton.mp hz with rfl
    exact hreach
  · intro h
    exact hl.complete (List.mem_singleton_self x) h

theorem getChildren_eq_nil_iff {σ : TreeStore} (hwf : WF σ) (x : Ident) :
    σ.getChildren x = [] ↔ ∀ it ∈ σ.items, it.parent ≠ some x := by
  rw [TreeStore.getChildren_eq_filter hwf]
  simp [List.filter_eq_nil_iff]

theorem getAllChildren_eq_nil_iff {σ : TreeStore} (hwf : WF σ) (hac : Acyclic σ)
    (x : Ident) :
    σ.getAllChildren x = [] ↔ σ.getChildren x = [] := by
  obtain ⟨l, hl, heq, _, _, _⟩ := getAllChildren_dfs hwf hac x
  rw [heq]
  cases hl with
  | pop hsub =>
    rename_i l'
    constructor
    · intro h
      exact (List.append_eq_nil.mp h).1
    · intro h
      rw [h] at hsub ⊢
      simp only [List.map_nil, List.reverse_nil, List.nil_append] at hsub
      cases hsub
      simp

/-! ### The ancestor traversal, characterized -/

theorem AncPath.parents_aux_eq {σ : TreeStore} {cur : Option Ident} {l : List TreeItem}
    (h : AncPath σ cur l) :
    ∀ fuel acc, l.length ≤ fuel →
      TreeStore.getAllParentsAux σ fuel cur acc = some (acc ++ l) := by
  induction h with
  | done =>
    intro fuel acc _
    simp [TreeStore.getAllParentsAux]
  | absent h =>
    intro fuel acc _
    simp [TreeStore.getAllParentsAux, h]
  | visit hget hsub ih =>
    rename_i cid it l'
    intro fuel acc hfuel
    cases fuel with
    | zero => simp at hfuel
    | succ f =>
      have hstep :
          TreeStore.getAllParentsAux σ (f + 1) (some cid) acc =
            TreeStore.getAllParentsAux σ f it.parent (acc ++ [it]) := by
        rw [TreeStore.getAllParentsAux, hget]
      rw [hstep, ih f (acc ++ [it]) (by simp at hfuel ⊢; omega)]
      simp

theorem ancpath_exists {σ : TreeStore} (hwf : WF σ) (r : Ident → Nat)
    (hr : ∀ a ∈ σ.items, ∀ p, a.parent = some p → r p < r a.id) :
    ∀ cid, ∃ l, AncPath σ (some cid) l := by
  have main : ∀ n cid, r cid < n → ∃ l, AncPath σ (some cid) l := by
    intro n
    induction n with
    | zero => exact fun cid h => absurd h (Nat.not_lt_zero _)
    | succ n ih =>
      intro cid hcid
      cases hget : JMap.get σ.idMap cid with
      | none => exact ⟨[], AncPath.absent hget⟩
      | some it =>
        have hitem : it ∈ σ.items ∧ it.id = cid :=
          (TreeStore.getItem_some_iff hwf).mp hget
        cases hpar : it.parent with
        | none => exact ⟨[it], AncPath.visit hget (hpar ▸ AncPath.done)⟩
        | some p =>
          have hp : r p < r cid := by
            have := hr it hitem.1 p hpar
            rw [hitem.2] at this
            exact this
          obtain ⟨l, hl⟩ := ih p (by omega)
          exact ⟨it :: l, AncPath.visit hget (hpar ▸ hl)⟩
  exact fun cid => main (r cid + 1) cid (Nat.lt_succ_self _)

/-- Along an ancestor path each record's parent is the id of the next. -/
theorem AncPath.chain {σ : TreeStore} (hwf : WF σ) {cur : Option Ident}
    {l : List TreeItem} (h : AncPath σ cur l) :
    List.Chain' (fun a b => a.parent = some b.id) l := by
  induction h with
  | done => exact List.chain'_nil
  | absent _ => exact List.chain'_nil
  | visit hget hsub ih =>
    rename_i cid it l'
    generalize hpar : it.parent = par at hsub
    cases hsub with
    | done => simp
    | absent _ => simp
    | visit hget2 hsub2 =>
      rename_i cid2 it2 l2
      refine List.chain'_cons.mpr ⟨?_, ih⟩
      have h2 := (TreeStore.getItem_some_iff hwf).mp hget2
      rw [hpar, h2.2]

/-- Every record on an ancestor path is the stored record for its id. -/
theorem AncPath.mem_getItem {σ : TreeStore} (hwf : WF σ) {cur : Option Ident}
    {l : List TreeItem} (h : AncPath σ cur l) :
    ∀ b ∈ l, σ.getItem b.id = some b := by
  induction h with
  | done => simp
  | absent _ => simp
  | visit hget hsub ih =>
    intro b hb
    rcases List.mem_cons.mp hb with rfl | hb
    · have hbits := (TreeStore.getItem_some_iff hwf).mp hget
      show σ.getItem b.id = some b
      rw [hbits.2]
      exact hget
    · exact ih b hb

/-- The last record of an ancestor path has a null or absent parent. -/
theorem AncPath.last_stop {σ : TreeStore} {cur : Option Ident} {l : List TreeItem}
    (h : AncPath σ cur l) :
    ∀ b, l.getLast? = some b → ∀ p, b.parent = some p → JMap.get σ.idMap p = none := by
  induction h with
  | done => simp
  | absent _ => simp
  | visit hget hsub ih =>
    rename_i cid it l'
    intro b hb p hp
    generalize hpar : it.parent = par at hsub
    cases hsub with
    | done =>
      simp only [List.getLast?_singleton, Option.some.injEq] at hb
      subst hb
      rw [hp] at hpar
      exact Option.noConfusion hpar
    | absent h2 =>
      rename_i cid2
      simp only [List.getLast?_singleton, Option.some.injEq] at hb
      subst hb
      rw [hp] at hpar
      rw [Option.some.inj hpar]
      exact h2
    | visit hget2 hsub2 =>
      rw [List.getLast?_cons_cons] at hb
      exact ih b hb p hp

/-- Ranks strictly decrease along an ancestor path. -/
theorem AncPath.rank_chain {σ : TreeStore} (hwf : WF σ) {r : Ident → Nat}
    (hr : ∀ a ∈ σ.items, ∀ p, a.parent = some p → r p < r a.id)
    {cur : Option Ident} {l : List TreeItem} (h : AncPath σ cur l) :
    List.Chain' (fun a b => r b.id < r a.id) l := by
  induction h with
  | done => exact List.chain'_nil
  | absent _ => simp
  | visit hget hsub ih =>
    rename_i cid it l'
    generalize hpar : it.parent = par at hsub
    cases hsub with
    | done => simp
    | absent _ => simp
    | visit hget2 hsub2 =>
      rename_i cid2 it2 l2
      refine List.chain'_cons.mpr ⟨?_, ih⟩
      have hit := (TreeStore.getItem_some_iff hwf).mp hget
      have hit2 := (TreeStore.getItem_some_iff hwf).mp hget2
      have := hr it hit.1 cid2 hpar
      rw [← hit2.2] at this
      exact this

theorem AncPath.length_le {σ : TreeStore} (hwf : WF σ) {r : Ident → Nat}
    (hr : ∀ a ∈ σ.items, ∀ p, a.parent = some p → r p < r a.id)
    {cur : Option Ident} {l : List TreeItem} (h : AncPath σ cur l) :
    l.length ≤ σ.items.length := by
  haveI : IsTrans TreeItem (fun a b => r b.id < r a.id) :=
    ⟨fun _ _ _ h1 h2 => lt_trans h2 h1⟩
  have hpw : l.Pairwise (fun a b => r b.id < r a.id) :=
    List.chain'_iff_pairwise.mp (h.rank_chain hwf hr)
  have hnd : l.Nodup := by
    refine hpw.imp ?_
    intro a b hab hcon
    rw [hcon] at hab
    exact absurd hab (lt_irrefl _)
  have hsub : ∀ b ∈ l, b ∈ σ.items := fun b hb =>
    ((TreeStore.getItem_some_iff hwf).mp (h.mem_getItem hwf b hb)).1
  exact (List.subperm_of_subset hnd hsub).length_le

/-- On an acyclic well-formed store `getAllParents` computes the ancestor
path: the model's fuel is sufficient. -/
theorem getAllParents_ancpath {σ : TreeStore} (hwf : WF σ) (hac : Acyclic σ)
    (id : Ident) : ∃ l, AncPath σ (some id) l ∧ σ.getAllParents id = l := by
  obtain ⟨r, hr⟩ := hac
  obtain ⟨l, hl⟩ := ancpath_exists hwf r hr id
  refine ⟨l, hl, ?_⟩
  rw [TreeStore.getAllParents, hl.parents_aux_eq σ.items.length [] (hl.length_le hwf hr)]
  simp

/-- `getAllParents` on an id absent from the ID map is empty, fuel or not. -/
theorem getAllParents_absent {σ : TreeStore} {id : Ident}
    (h : JMap.get σ.idMap id = none) : σ.getAllParents id = [] := by
  rw [TreeStore.getAllParents, TreeStore.getAllParentsAux, h]
  rfl

/-! ### Removal, characterized -/

/-- Survivors of `removeItem`: exactly the records that neither carry the
removed id nor belong to its pre-removal descendant list. -/
theorem removeItem_mem {σ : TreeStore} (hwf : WF σ) (hac : Acyclic σ)
    (id : Ident) (rec : TreeItem) :
    rec ∈ (σ.removeItem id).items ↔
      rec ∈ σ.items ∧ rec.id ≠ id ∧ rec ∉ σ.getAllChildren id := by
  obtain ⟨l, hl, heq, hnd, hord, hsubm⟩ := getAllChildren_dfs hwf hac id
  have hshow : (σ.removeItem id).items =
      σ.items.filter
        (fun it => decide ¬(it.id ∈ id :: (σ.getAllChildren id).map (fun c => c.id))) := rfl
  rw [hshow, List.mem_filter, heq]
  simp only [decide_eq_true_eq, List.mem_cons, List.mem_map, not_or, not_exists, not_and]
  constructor
  · rintro ⟨hmem, hne, hnotid⟩
    refine ⟨hmem, hne, fun hin => ?_⟩
    exact hnotid rec hin rfl
  · rintro ⟨hmem, hne, hnotin⟩
    refine ⟨hmem, hne, fun c hc hcid => ?_⟩
    have : c = rec :=
      TreeStore.eq_of_mem_of_id_eq hwf (hsubm c hc) hmem hcid
    exact hnotin (this ▸ hc)

/-- Removing an id that is neither stored nor a parent reference leaves the
whole state unchanged. -/
theorem removeItem_noop {σ : TreeStore} (hwf : WF σ) {id : Ident}
    (hnone : σ.getItem id = none) (hnochild : σ.getAllChildren id = []) :
    σ.removeItem id = σ := by
  have hids : ∀ it ∈ σ.items, it.id ≠ id := (TreeStore.getItem_none_iff hwf).mp hnone
  have hfilter :
      σ.items.filter
        (fun it => decide ¬(it.id ∈ id :: (σ.getAllChildren id).map (fun c => c.id))) =
        σ.items := by
    rw [hnochild]
    apply List.filter_eq_self.mpr
    intro a ha
    simp [hids a ha]
  have hdel : JMap.del σ.idMap id = σ.idMap := by
    rw [JMap.del]
    apply List.filter_eq_self.mpr
    intro kv hkv
    rw [hwf.2.1, derivedIdMap_eq_map _ hwf.1] at hkv
    rcases List.mem_map.mp hkv with ⟨it, hit, rfl⟩
    simp [hids it hit]
  have hidm :
      (id :: (σ.getAllChildren id).map (fun c => c.id)).foldl
        (fun m rid => JMap.del m rid) σ.idMap = σ.idMap := by
    rw [hnochild]
    show JMap.del σ.idMap id = σ.idMap
    exact hdel
  have hstep : σ.removeItem id =
      TreeStore.mk
        (σ.items.filter
          (fun it => decide ¬(it.id ∈ id :: (σ.getAllChildren id).map (fun c => c.id))))
        ((id :: (σ.getAllChildren id).map (fun c => c.id)).foldl
          (fun m rid => JMap.del m rid) σ.idMap)
        (rebuildChildren
          (σ.items.filter
            (fun it => decide ¬(it.id ∈ id :: (σ.getAllChildren id).map (fun c => c.id))))) :=
    rfl
  rw [hstep, hidm, hfilter, ← hwf.2.2]

/-- Removing the same id twice is removing it once. -/
theorem removeItem_idem {σ : TreeStore} (hwf : WF σ) (hac : Acyclic σ) (id : Ident) :
    (σ.removeItem id).removeItem id = σ.removeItem id := by
  have hwf' := wf_removeItem hwf id
  have hsubit : ∀ it ∈ (σ.removeItem id).items, it ∈ σ.items :=
    fun it hit => ((removeItem_mem hwf hac id it).mp hit).1
  have hac' : Acyclic (σ.removeItem id) := by
    obtain ⟨r, hr⟩ := hac
    exact ⟨r, fun it hit p hp => hr it (hsubit it hit) p hp⟩
  have hnone : (σ.removeItem id).getItem id = none := by
    rw [TreeStore.getItem_none_iff hwf']
    intro it hit
    exact ((removeItem_mem hwf hac id it).mp hit).2.1
  have hnochild : (σ.removeItem id).getAllChildren id = [] := by
    rw [getAllChildren_eq_nil_iff hwf' hac', getChildren_eq_nil_iff hwf']
    intro it hit hpar
    obtain ⟨hmem, _, hnotin⟩ := (removeItem_mem hwf hac id it).mp hit
    exact hnotin ((mem_getAllChildren_iff hwf hac).mpr (Desc.direct hmem hpar))
  exact removeItem_noop hwf' hnone hnochild

/-- The specification's invariant bundle follows from well-formedness. -/
theorem wf_storeInv {σ : TreeStore} (hwf : WF σ) : StoreInv σ := by
  refine ⟨hwf.1, ?_, fun p _ => TreeStore.getChildren_eq_filter hwf p⟩
  intro r
  constructor
  · rintro ⟨k, hk⟩
    exact ((TreeStore.getItem_some_iff hwf).mp hk).1
  · intro hr
    exact ⟨r.id, (TreeStore.getItem_some_iff hwf).mpr ⟨hr, rfl⟩⟩

/-- The explicit success state of `updateItem`. -/
theorem updateItem_ok_eq {σ : TreeStore} {it oldItem : TreeItem}
    (hget : JMap.get σ.idMap it.id = some oldItem) :
    σ.updateItem it =
      .ok
        (TreeStore.mk
          (σ.items.map (fun r => if r.id = it.id then TreeStore.objAssign oldItem it else r))
          (JMap.set σ.idMap it.id (TreeStore.objAssign oldItem it))
          (if decide ¬(oldItem.parent = it.parent) then
            rebuildChildren
              (σ.items.map (fun r => if r.id = it.id then TreeStore.objAssign oldItem it else r))
          else
            σ.childrenMap.map
              (fun kv =>
                (kv.1, kv.2.map
                  (fun r => if r.id = it.id then TreeStore.objAssign oldItem it else r))))) := by
  rw [TreeStore.updateItem, hget]

/-- Replacing the record with id `k` by a record that still has id `k`
does not affect the records with other ids. -/
theorem filter_and_map_subst (items : List TreeItem) (k : Ident) (merged : TreeItem)
    (hmid : merged.id = k) (q : TreeItem → Bool) :
    (items.map (fun r => if r.id = k then merged else r)).filter
        (fun c => decide ¬(c.id = k) && q c) =
      items.filter (fun c => decide ¬(c.id = k) && q c) := by
  induction items with
  | nil => rfl
  | cons a rest ih =>
    rw [List.map_cons, List.filter_cons, List.filter_cons]
    by_cases ha : a.id = k
    · rw [if_pos ha]
      simp only [hmid, ha, decide_True, Bool.not_true, decide_not, Bool.false_and, if_neg,
        Bool.false_eq_true, not_false_iff]
      simpa using ih
    · rw [if_neg ha]
      simp only [ha, decide_False, decide_not, Bool.not_false, Bool.true_and]
      by_cases hq : q a = true
      · simp only [hq, if_pos]
        rw [List.cons_inj_right]
        simpa using ih
      · simp only [hq, Bool.false_eq_true, if_neg, not_false_iff]
        simpa using ih

/-- The ancestor loop on the two-cycle store exhausts any amount of fuel. -/
theorem cyclic_parents_aux :
    ∀ fuel (c : Ident), (c = Sum.inr 1 ∨ c = Sum.inr 2) →
      ∀ acc, TreeStore.getAllParentsAux cyclicStore fuel (some c) acc = none := by
  intro fuel
  induction fuel with
  | zero => rintro c (rfl | rfl) acc <;> rfl
  | succ f ih =>
    rintro c (rfl | rfl) acc
    · exact ih (Sum.inr 2) (Or.inr rfl) (acc ++ [mkItem 1 (some 2) "a"])
    · exact ih (Sum.inr 1) (Or.inl rfl) (acc ++ [mkItem 2 (some 1) "b"])

/-! ### The claims -/

/-- C1, counterexample: the constructor performs no duplicate-id check, so
construction from a sequence with two records of id 1 violates the store
invariants (ids are not unique, and the ID map lost a record). -/
theorem c1_constructor_counterexample : ¬ StoreInv (TreeStore.new dupItems) :=
  fun h => absurd h.1 (by decide)

/-- C1 (amended): the store invariants hold after construction from a
sequence of records with pairwise distinct ids, and every mutation —
successful `addItem`, `removeItem`, successful `updateItem` — preserves
well-formedness and hence the invariants. -/
theorem c1_invariants_amended :
    (∀ input : List TreeItem, (input.map (fun r => r.id)).Nodup →
        WF (TreeStore.new input) ∧ StoreInv (TreeStore.new input))
    ∧ (∀ σ σ' : TreeStore, ∀ it : TreeItem, WF σ → σ.addItem it = .ok σ' →
        WF σ' ∧ StoreInv σ')
    ∧ (∀ σ : TreeStore, ∀ id : Ident, WF σ →
        WF (σ.removeItem id) ∧ StoreInv (σ.removeItem id))
    ∧ (∀ σ σ' : TreeStore, ∀ it : TreeItem, WF σ → σ.updateItem it = .ok σ' →
        WF σ' ∧ StoreInv σ') := by
  refine ⟨?_, ?_, ?_, ?_⟩
  · intro input h
    have hwf := wf_new input h
    exact ⟨hwf, wf_storeInv hwf⟩
  · intro σ σ' it hwf hok
    have hwf' := wf_addItem hwf hok
    exact ⟨hwf', wf_storeInv hwf'⟩
  · intro σ id hwf
    have hwf' := wf_removeItem hwf id
    exact ⟨hwf', wf_storeInv hwf'⟩
  · intro σ σ' it hwf hok
    have hwf' := wf_updateItem hwf hok
    exact ⟨hwf', wf_storeInv hwf'⟩

theorem c1_invariants_amended_witness : WF (TreeStore.new scenarioItems) :=
  (c1_invariants_amended.1 scenarioItems (by decide)).1

/-- C2, counterexample: `removeItem` on an id absent from the store is not
a no-op when some record's `parent` is an orphan reference to that id —
the orphan subtree is removed. -/
theorem c2_removeItem_counterexample :
    orphanStore.getItem (Sum.inr 99) = none
    ∧ (orphanStore.removeItem (Sum.inr 99)).items = []
    ∧ orphanStore.items ≠ [] :=
  ⟨rfl, by decide, by decide⟩

/-- C2 (amended): `removeItem id` removes exactly the record with that id
and the elements of `getAllChildren id` computed before removal; it is a
no-op when `id` is absent and additionally no record reaches it through
parent links (so `getAllChildren id` is empty); and removing twice equals
removing once. -/
theorem c2_removeItem_amended (σ : TreeStore) (id : Ident)
    (hwf : WF σ) (hac : Acyclic σ) :
    (∀ rec : TreeItem, rec ∈ (σ.removeItem id).items ↔
        rec ∈ σ.items ∧ rec.id ≠ id ∧ rec ∉ σ.getAllChildren id)
    ∧ (σ.getItem id = none → σ.getAllChildren id = [] → σ.removeItem id = σ)
    ∧ (σ.removeItem id).removeItem id = σ.removeItem id :=
  ⟨removeItem_mem hwf hac id, fun h1 h2 => removeItem_noop hwf h1 h2,
    removeItem_idem hwf hac id⟩

theorem c2_removeItem_amended_witness :
    (scenarioStore.removeItem (Sum.inr 2)).removeItem (Sum.inr 2) =
      scenarioStore.removeItem (Sum.inr 2) :=
  (c2_removeItem_amended scenarioStore (Sum.inr 2) (by decide)
    ⟨scenarioRank, by decide⟩).2.2

/-- C3, counterexample: `getAllChildren` on an unknown id is not empty when
that id occurs as an orphan parent reference. -/
theorem c3_getAllChildren_counterexample :
    orphanStore.getItem (Sum.inr 99) = none
    ∧ orphanStore.getAllChildren (Sum.inr 99) ≠ [] :=
  ⟨rfl, by decide⟩

/-- C3 (amended): on an acyclic well-formed store, `getAllChildren id`
returns exactly the strict descendants of `id` (the records whose parent
chain reaches `id`), each exactly once, never preceded by an ancestor,
excluding any record with id `id`; the result is empty exactly when no
record's `parent` equals `id` — which an unknown id need not satisfy,
since orphan parent references are permitted. -/
theorem c3_getAllChildren_amended (σ : TreeStore) (id : Ident)
    (hwf : WF σ) (hac : Acyclic σ) :
    (∀ rec : TreeItem, rec ∈ σ.getAllChildren id ↔ Desc σ id rec)
    ∧ (σ.getAllChildren id).Nodup
    ∧ (σ.getAllChildren id).Pairwise (fun a b => ¬ Desc σ b.id a)
    ∧ (∀ rec ∈ σ.getAllChildren id, rec.id ≠ id)
    ∧ (σ.getAllChildren id = [] ↔ ∀ rec ∈ σ.items, rec.parent ≠ some id) := by
  obtain ⟨l, hl, heq, hnd, hord, hsubm⟩ := getAllChildren_dfs hwf hac id
  refine ⟨fun rec => mem_getAllChildren_iff hwf hac, ?_, ?_, ?_, ?_⟩
  · rw [heq]
    exact hnd
  · rw [heq]
    exact hord.imp (fun h hdesc => h ((reach_iff_desc hwf).mpr hdesc))
  · intro rec hrec
    obtain ⟨r, hr⟩ := hac
    have hreach : Reach σ id rec := by
      rw [heq] at hrec
      rcases hl.sound rec hrec with ⟨z, hz, h⟩
      rcases List.mem_singleton.mp hz with rfl
      exact h
    have hlt := hreach.rank_lt hwf hr
    intro hcon
    rw [hcon] at hlt
    exact absurd hlt (lt_irrefl _)
  · rw [getAllChildren_eq_nil_iff hwf hac, getChildren_eq_nil_iff hwf]

theorem c3_getAllChildren_amended_witness :
    (scenarioStore.getAllChildren (Sum.inr 1)).Nodup :=
  (c3_getAllChildren_amended scenarioStore (Sum.inr 1) (by decide)
    ⟨scenarioRank, by decide⟩).2.1

/-- C4: `getAllParents` on an absent id is empty; on a present id (of an
acyclic well-formed store) it returns the record itself followed by the
chain of parents, each stored under its id, ending at the first record
whose parent is null or absent. -/
theorem c4_getAllParents_spec (σ : TreeStore) (id : Ident)
    (hwf : WF σ) (hac : Acyclic σ) :
    (σ.getItem id = none → σ.getAllParents id = [])
    ∧ ∀ rec : TreeItem, σ.getItem id = some rec →
        ∃ l, σ.getAllParents id = rec :: l
          ∧ List.Chain' (fun a b => a.parent = some b.id) (rec :: l)
          ∧ (∀ b ∈ rec :: l, σ.getItem b.id = some b)
          ∧ ∀ last, (rec :: l).getLast? = some last →
              ∀ p, last.parent = some p → σ.getItem p = none := by
  constructor
  · exact fun h => getAllParents_absent h
  · intro rec hrec
    obtain ⟨L, hL, heq⟩ := getAllParents_ancpath hwf hac id
    have hrec' : JMap.get σ.idMap id = some rec := hrec
    cases hL with
    | absent h2 =>
      rw [hrec'] at h2
      exact Option.noConfusion h2
    | visit hget hsub =>
      rename_i it l
      rw [hrec'] at hget
      obtain rfl := Option.some.inj hget
      have hfull : AncPath σ (some id) (rec :: l) := AncPath.visit hrec' hsub
      exact ⟨l, heq, hfull.chain hwf, hfull.mem_getItem hwf, hfull.last_stop⟩

theorem c4_getAllParents_spec_witness :
    ∃ l, scenarioStore.getAllParents (Sum.inr 4) = mkItem 4 (some 2) "d" :: l
      ∧ List.Chain' (fun a b => a.parent = some b.id) (mkItem 4 (some 2) "d" :: l)
      ∧ (∀ b ∈ mkItem 4 (some 2) "d" :: l, scenarioStore.getItem b.id = some b)
      ∧ ∀ last, (mkItem 4 (some 2) "d" :: l).getLast? = some last →
          ∀ p, last.parent = some p → scenarioStore.getItem p = none :=
  (c4_getAllParents_spec scenarioStore (Sum.inr 4) (by decide)
    ⟨scenarioRank, by decide⟩).2 (mkItem 4 (some 2) "d") (by decide)

/-- C5: `addItem` fails exactly when a record with the same id is already
indexed, and the failure returns before any state is built; on success the
record is appended to the sequence, registered in the ID map (all other
ids unchanged), and appended to its parent's bucket exactly when its
parent is non-null (all other buckets unchanged). -/
theorem c5_addItem_spec (σ : TreeStore) (it : TreeItem) :
    ((∃ e, σ.addItem it = .error e) ↔ σ.getItem it.id ≠ none)
    ∧ ∀ σ', σ.addItem it = .ok σ' →
        σ'.items = σ.items ++ [it]
        ∧ σ'.getItem it.id = some it
        ∧ (∀ j, j ≠ it.id → σ'.getItem j = σ.getItem j)
        ∧ (∀ p, it.parent = some p → σ'.getChildren p = σ.getChildren p ++ [it])
        ∧ (∀ q, it.parent ≠ some q → σ'.getChildren q = σ.getChildren q) := by
  by_cases hdup : JMap.hasKey σ.idMap it.id = true
  · constructor
    · constructor
      · intro _
        exact (JMap.hasKey_iff_get _ _).mp hdup
      · intro _
        exact ⟨"Item with this id already exists", by rw [TreeStore.addItem, if_pos hdup]⟩
    · intro σ' hok
      rw [TreeStore.addItem, if_pos hdup] at hok
      exact Except.noConfusion hok
  · have hok_shape : σ.addItem it =
        .ok (TreeStore.mk (σ.items ++ [it]) (JMap.set σ.idMap it.id it)
          (match it.parent with
            | none => σ.childrenMap
            | some p =>
              JMap.set σ.childrenMap p ((JMap.get σ.childrenMap p).getD [] ++ [it]))) := by
      rw [TreeStore.addItem, if_neg hdup]
    constructor
    · constructor
      · rintro ⟨e, he⟩
        rw [hok_shape] at he
        exact Except.noConfusion he
      · intro hget
        exact absurd ((JMap.hasKey_iff_get σ.idMap it.id).mpr hget) hdup
    · intro σ' hok
      rw [hok_shape] at hok
      obtain rfl := Except.ok.inj hok
      refine ⟨rfl, ?_, ?_, ?_, ?_⟩
      · exact JMap.get_set_self σ.idMap it.id it
      · intro j hj
        exact JMap.get_set_ne σ.idMap it.id j it hj
      · intro p hp
        show (JMap.get
          (match it.parent with
            | none => σ.childrenMap
            | some p =>
              JMap.set σ.childrenMap p ((JMap.get σ.childrenMap p).getD [] ++ [it])) p).getD []
          = σ.getChildren p ++ [it]
        rw [hp, JMap.get_set_self]
        rfl
      · intro q hq
        show (JMap.get
          (match it.parent with
            | none => σ.childrenMap
            | some p =>
              JMap.set σ.childrenMap p ((JMap.get σ.childrenMap p).getD [] ++ [it])) q).getD []
          = σ.getChildren q
        cases hpar : it.parent with
        | none => rfl
        | some p =>
          have hpq : q ≠ p := by
            intro h
            exact hq (by rw [hpar, h])
          rw [JMap.get_set_ne σ.childrenMap p q _ hpq]
          rfl

theorem c5_addItem_spec_witness :
    addedStore.getItem (Sum.inr 8) = some (mkItem 8 (some 1) "h") :=
  ((c5_addItem_spec scenarioStore (mkItem 8 (some 1) "h")).2 addedStore rfl).2.1

/-- C6: `updateItem` fails exactly when no record with the supplied id is
indexed, returning before any state is built; on success the stored record
becomes the field-by-field merge of the old record and the supplied one
(same id, so the stored instance is updated rather than replaced), the
sequence holds the merged record at the old record's position, and every
other id still maps to its old record. -/
theorem c6_updateItem_spec (σ : TreeStore) (it : TreeItem) (hwf : WF σ) :
    ((∃ e, σ.updateItem it = .error e) ↔ σ.getItem it.id = none)
    ∧ ∀ oldItem, σ.getItem it.id = some oldItem →
        ∃ σ', σ.updateItem it = .ok σ'
          ∧ σ'.getItem it.id = some (TreeStore.objAssign oldItem it)
          ∧ σ'.items =
              σ.items.map (fun r => if r.id = it.id then TreeStore.objAssign oldItem it else r)
          ∧ ∀ j, j ≠ it.id → σ'.getItem j = σ.getItem j := by
  constructor
  · cases hget : JMap.get σ.idMap it.id with
    | none =>
      constructor
      · intro _
        exact hget
      · intro _
        exact ⟨"Item with this id does not exist", by rw [TreeStore.updateItem, hget]⟩
    | some oldItem =>
      constructor
      · rintro ⟨e, he⟩
        rw [updateItem_ok_eq hget] at he
        exact Except.noConfusion he
      · intro hnone
        have hcontra : JMap.get σ.idMap it.id = none := hnone
        rw [hget] at hcontra
        exact Option.noConfusion hcontra
  · intro oldItem hget
    have hget' : JMap.get σ.idMap it.id = some oldItem := hget
    refine ⟨_, updateItem_ok_eq hget', ?_, rfl, ?_⟩
    · exact JMap.get_set_self σ.idMap it.id _
    · intro j hj
      exact JMap.get_set_ne σ.idMap it.id j _ hj

theorem c6_updateItem_spec_witness :
    ∃ σ', scenarioStore.updateItem (mkItem 2 (some 1) "B") = .ok σ'
      ∧ σ'.getItem (mkItem 2 (some 1) "B").id =
          some (TreeStore.objAssign (mkItem 2 (some 1) "b") (mkItem 2 (some 1) "B"))
      ∧ σ'.items = scenarioStore.items.map
          (fun r => if r.id = (mkItem 2 (some 1) "B").id then
            TreeStore.objAssign (mkItem 2 (some 1) "b") (mkItem 2 (some 1) "B") else r)
      ∧ ∀ j, j ≠ (mkItem 2 (some 1) "B").id →
          σ'.getItem j = scenarioStore.getItem j :=
  (c6_updateItem_spec scenarioStore (mkItem 2 (some 1) "B") (by decide)).2
    (mkItem 2 (some 1) "b") (by decide)

/-- C7: a successful `updateItem` with an unchanged parent maps every
bucket pointwise (only the aliased record shows the merged fields); with a
changed parent, bucket membership of every other record is untouched and
the merged record sits exactly in the bucket of its new parent. -/
theorem c7_updateItem_reindex (σ σ' : TreeStore) (it oldItem : TreeItem)
    (hwf : WF σ) (hget : σ.getItem it.id = some oldItem)
    (hok : σ.updateItem it = .ok σ') :
    (oldItem.parent = it.parent →
      ∀ p, σ'.getChildren p =
        (σ.getChildren p).map
          (fun c => if c.id = it.id then TreeStore.objAssign oldItem it else c))
    ∧ (oldItem.parent ≠ it.parent →
      (∀ p, (σ'.getChildren p).filter (fun c => decide ¬(c.id = it.id)) =
          (σ.getChildren p).filter (fun c => decide ¬(c.id = it.id)))
      ∧ (∀ p, TreeStore.objAssign oldItem it ∈ σ'.getChildren p ↔ it.parent = some p)) := by
  have hget' : JMap.get σ.idMap it.id = some oldItem := hget
  have hwf' : WF σ' := wf_updateItem hwf hok
  have hold := (TreeStore.getItem_some_iff hwf).mp hget
  constructor
  · intro hpc
    have hcond : (decide ¬(oldItem.parent = it.parent)) = false := by simp [hpc]
    have hshape : σ.updateItem it =
        .ok (TreeStore.mk
          (σ.items.map (fun r => if r.id = it.id then TreeStore.objAssign oldItem it else r))
          (JMap.set σ.idMap it.id (TreeStore.objAssign oldItem it))
          (σ.childrenMap.map
            (fun kv =>
              (kv.1, kv.2.map
                (fun r => if r.id = it.id then TreeStore.objAssign oldItem it else r))))) := by
      rw [updateItem_ok_eq hget', hcond, if_neg Bool.false_ne_true]
    rw [hshape] at hok
    obtain rfl := Except.ok.inj hok
    intro p
    show (JMap.get
        (σ.childrenMap.map
          (fun kv =>
            (kv.1, kv.2.map
              (fun r => if r.id = it.id then TreeStore.objAssign oldItem it else r)))) p).getD []
      = ((JMap.get σ.childrenMap p).getD []).map
          (fun c => if c.id = it.id then TreeStore.objAssign oldItem it else c)
    rw [JMap.get_mapVal]
    cases JMap.get σ.childrenMap p <;> simp
  · intro hpc
    have hcond : (decide ¬(oldItem.parent = it.parent)) = true := by simp [hpc]
    have hshape : σ.updateItem it =
        .ok (TreeStore.mk
          (σ.items.map (fun r => if r.id = it.id then TreeStore.objAssign oldItem it else r))
          (JMap.set σ.idMap it.id (TreeStore.objAssign oldItem it))
          (rebuildChildren
            (σ.items.map
              (fun r => if r.id = it.id then TreeStore.objAssign oldItem it else r)))) := by
      rw [updateItem_ok_eq hget', hcond, if_pos rfl]
    rw [hshape] at hok
    obtain rfl := Except.ok.inj hok
    constructor
    · intro p
      rw [TreeStore.getChildren_eq_filter hwf' p, TreeStore.getChildren_eq_filter hwf p]
      show ((σ.items.map
          (fun r => if r.id = it.id then TreeStore.objAssign oldItem it else r)).filter
            (fun c => decide (c.parent = some p))).filter
          (fun c => decide ¬(c.id = it.id)) = _
      rw [List.filter_filter, List.filter_filter]
      exact filter_and_map_subst σ.items it.id (TreeStore.objAssign oldItem it) rfl
        (fun c => decide (c.parent = some p))
    · intro p
      rw [TreeStore.mem_getChildren_iff hwf']
      constructor
      · rintro ⟨_, hpar⟩
        exact hpar
      · intro hp
        refine ⟨?_, hp⟩
        show TreeStore.objAssign oldItem it ∈
          σ.items.map (fun r => if r.id = it.id then TreeStore.objAssign oldItem it else r)
        exact List.mem_map.mpr ⟨oldItem, hold.1, by rw [if_pos hold.2]⟩

theorem c7_updateItem_reindex_witness :
    TreeStore.objAssign (mkItem 2 (some 1) "b") (mkItem 2 (some 3) "x") ∈
      movedStore.getChildren (Sum.inr 3) :=
  (((c7_updateItem_reindex scenarioStore movedStore (mkItem 2 (some 3) "x")
      (mkItem 2 (some 1) "b") (by decide) (by decide) rfl).2
    (by decide)).2 (Sum.inr 3)).mpr (by decide)

/-- C8, counterexample: `getChildren` on an unknown id is not empty when
that id occurs as an orphan parent reference — the children map is keyed
by parent value whether or not that value is a stored id. -/
theorem c8_getChildren_counterexample :
    orphanStore.getItem (Sum.inr 99) = none
    ∧ orphanStore.getChildren (Sum.inr 99) ≠ [] :=
  ⟨rfl, by decide⟩

/-- C8 (amended): `getChildren p` is the sequence-ordered filter of the
records with parent `p` (hence duplicate-free, containing each child
exactly once, in insertion order among siblings), and it is the empty
sequence — never absent or null — exactly when no record has parent `p`,
in particular for childless ids; an unknown id need not qualify, since an
orphan parent reference keeps its bucket. -/
theorem c8_getChildren_spec (σ : TreeStore) (hwf : WF σ) :
    (∀ p, σ.getChildren p = σ.items.filter (fun c => decide (c.parent = some p)))
    ∧ (∀ p, (σ.getChildren p).Nodup)
    ∧ (∀ rec ∈ σ.items, ∀ p, rec.parent = some p → rec ∈ σ.getChildren p)
    ∧ (∀ p, (∀ rec ∈ σ.items, rec.parent ≠ some p) → σ.getChildren p = []) := by
  refine ⟨fun p => TreeStore.getChildren_eq_filter hwf p, ?_, ?_, ?_⟩
  · intro p
    rw [TreeStore.getChildren_eq_filter hwf p]
    exact (List.Nodup.of_map _ hwf.1).filter _
  · intro rec hrec p hp
    exact (TreeStore.mem_getChildren_iff hwf).mpr ⟨hrec, hp⟩
  · intro p h
    exact (getChildren_eq_nil_iff hwf p).mpr h

theorem c8_getChildren_spec_witness :
    mkItem 2 (some 1) "b" ∈ scenarioStore.getChildren (Sum.inr 1) :=
  (c8_getChildren_spec scenarioStore (by decide)).2.2.1 (mkItem 2 (some 1) "b") (by decide)
    (Sum.inr 1) (by decide)

/-- C9: the concrete scenario of the specification, computed on the model:
children of 1 are ids [2,3]; the descendants of 1 number five and are
exactly ids 2,3,4,5,6; the ancestor path of 4 is ids [4,2,1]; and after
`removeItem 2` the store holds exactly ids 1,3,6,7 with one child under 1. -/
theorem c9_scenario :
    (scenarioStore.getChildren (Sum.inr 1)).map (fun r => r.id) = [Sum.inr 2, Sum.inr 3]
    ∧ (scenarioStore.getAllChildren (Sum.inr 1)).length = 5
    ∧ List.Perm ((scenarioStore.getAllChildren (Sum.inr 1)).map (fun r => r.id))
        [Sum.inr 2, Sum.inr 3, Sum.inr 4, Sum.inr 5, Sum.inr 6]
    ∧ (scenarioStore.getAllParents (Sum.inr 4)).map (fun r => r.id) =
        [Sum.inr 4, Sum.inr 2, Sum.inr 1]
    ∧ (scenarioStore.removeItem (Sum.inr 2)).items.map (fun r => r.id) =
        [Sum.inr 1, Sum.inr 3, Sum.inr 6, Sum.inr 7]
    ∧ ((scenarioStore.removeItem (Sum.inr 2)).getChildren (Sum.inr 1)).length = 1 :=
  ⟨by decide, by decide, by decide, by decide, by decide, by decide⟩

/-- C10: on an acyclic well-formed store both traversal loops terminate
within the modelled fuel (the descendant loop within `items.length + 1`
iterations, the ancestor loop within `items.length`), while on the store
with a two-cycle of parent references the ancestor loop exhausts every
amount of fuel: the traversal is unbounded. -/
theorem c10_termination (σ : TreeStore) (id : Ident) (hwf : WF σ) (hac : Acyclic σ) :
    (∃ l, TreeStore.getAllChildrenAux σ (σ.items.length + 1) [id] [] = some l)
    ∧ (∃ l, TreeStore.getAllParentsAux σ σ.items.length (some id) [] = some l)
    ∧ ∀ fuel acc, TreeStore.getAllParentsAux cyclicStore fuel (some (Sum.inr 1)) acc = none := by
  refine ⟨?_, ?_, fun fuel acc => cyclic_parents_aux fuel (Sum.inr 1) (Or.inl rfl) acc⟩
  · obtain ⟨l, hl, heq, hnd, hord, hsubm⟩ := getAllChildren_dfs hwf hac id
    have hlen : l.length ≤ σ.items.length := (List.subperm_of_subset hnd hsubm).length_le
    refine ⟨l, ?_⟩
    rw [hl.children_aux_eq (σ.items.length + 1) [] (by simp only [List.length_singleton]; omega)]
    rw [List.nil_append]
  · obtain ⟨r, hr⟩ := hac
    obtain ⟨L, hL⟩ := ancpath_exists hwf r hr id
    refine ⟨L, ?_⟩
    rw [hL.parents_aux_eq σ.items.length [] (hL.length_le hwf hr)]
    rw [List.nil_append]

theorem c10_termination_witness :
    TreeStore.getAllParentsAux cyclicStore 5 (some (Sum.inr 1)) [] = none :=
  (c10_termination scenarioStore (Sum.inr 1) (by decide) ⟨scenarioRank, by decide⟩).2.2 5 []

end MStory
